import Mathlib

/-!
Verification of the chunked-collections repository: a growable vector whose
elements are grouped into fixed-size chunks of capacity N, each chunk kept in
an external chunk store (IndexMap) keyed by chunk index.

The embedding below translates the Rust source (src/src/vec/mod.rs,
src/src/vec/iter.rs, src/src/vec/impls.rs) into Lean definitions:

- Machine integers (u32 indices and lengths) become Nat; the only place
  overflow matters is push, where the source does checked_add and aborts at
  u32::MAX, modelled by an explicit comparison with u32Max.
- Operations that can abort the host call (env::panic_str, unwrap,
  expect_consistent_state) return Option, with none standing for the abort.
- A chunk [T; N] becomes a function Fin N -> T; every chunk access in the
  source goes through position index mod N, which is always < N.
- The zeroed placeholder written by MaybeUninit::zeroed().assume_init() is
  modelled by the Inhabited default of the element type.
- The external IndexMap chunk store (a near-sdk collaborator, specified in
  the spec as an abstract lazily-cached map from a chunk index to an optional
  value plus a storage namespace) is modelled by its logical view: the
  namespace bytes plus a function from chunk index to optional chunk.
-/

set_option maxHeartbeats 1000000

namespace ChunkedCollections

/-- Maximum value of a u32, the capacity bound on the vector length. -/
def u32Max : Nat := 4294967295

/-- Source chunk_index: the chunk that owns logical index i is i / N. -/
def chunk_index (N : ℕ+) (index : Nat) : Nat := index / N

/-- Source chunk_pos: the offset of logical index i inside its chunk is i mod N. -/
def chunk_pos (N : ℕ+) (index : Nat) : Nat := index % N

/-- The chunk offset of index i packaged as a Fin N, used to read a chunk. -/
def posFin (N : ℕ+) (index : Nat) : Fin N := ⟨index % N, Nat.mod_lt _ N.pos⟩

/-- Modelled from the spec: the external IndexMap chunk store is an abstract
map from a chunk index to an optional value, bound to a storage namespace.
Only its logical view is represented; the lazy cache and the storage medium
behind it are merged into the single function view, which is faithful for a
single-threaded session. The namespace bytes pfx are kept because the
serialization of the store consists of exactly those bytes. -/
structure IndexMap (α : Type) : Type where
  pfx : List Nat
  view : Nat → Option α

/-- Store get: the value at a chunk index, if present. -/
def IndexMap.get {α : Type} (m : IndexMap α) (index : Nat) : Option α :=
  m.view index

/-- Store set: write or clear the slot at a chunk index. -/
def IndexMap.set {α : Type} (m : IndexMap α) (index : Nat) (value : Option α) : IndexMap α :=
  { m with view := fun k => if k = index then value else m.view k }

/-- Store remove: return the value at the index and clear the slot. -/
def IndexMap.remove {α : Type} (m : IndexMap α) (index : Nat) : Option α × IndexMap α :=
  (m.view index, m.set index none)

/-- Store new: an empty store bound to a namespace. -/
def IndexMap.new {α : Type} (pfx : List Nat) : IndexMap α :=
  { pfx := pfx, view := fun _ => none }

/-- The ChunkedVector struct from src/src/vec/mod.rs: a length and the
chunk-indexed backing store of fixed-size chunks. -/
structure ChunkedVector (T : Type) (N : ℕ+) : Type where
  len : Nat
  values : IndexMap (Fin N → T)

variable {T : Type} {N : ℕ+}

/-- Source Vector::new: empty vector bound to a storage namespace. -/
def ChunkedVector.new (pfx : List Nat) : ChunkedVector T N :=
  { len := 0, values := IndexMap.new pfx }

/-- Source Vector::is_empty. -/
def ChunkedVector.is_empty (v : ChunkedVector T N) : Bool :=
  v.len == 0

/-- Source Vector::clear: set every store key in 0..len to none, then zero the
length. The loop iterates logical indices, which covers every chunk index in
use because chunk_index i is at most i. -/
def ChunkedVector.clear (v : ChunkedVector T N) : ChunkedVector T N :=
  { len := 0,
    values := (List.range v.len).foldl (fun m i => m.set i none) v.values }

/-- Source Vector::get: none when index is at least len, otherwise look the
owning chunk up in the store and read the element at the chunk offset. A
missing chunk makes the map produce none; there is no abort path here. -/
def ChunkedVector.get (v : ChunkedVector T N) (index : Nat) : Option T :=
  if v.len ≤ index then none
  else (v.values.get (chunk_index N index)).map fun chunk => chunk (posFin N index)

/-- Source Vector::get_mut: identical index computation to get; the returned
exclusive reference is modelled by the value it points at. -/
def ChunkedVector.get_mut (v : ChunkedVector T N) (index : Nat) : Option T :=
  if v.len ≤ index then none
  else (v.values.get (chunk_index N index)).map fun chunk => chunk (posFin N index)

/-- Write position p of a chunk. -/
def setPos (chunk : Fin N → T) (p : Fin N) (x : T) : Fin N → T :=
  fun j => if j = p then x else chunk j

/-- Swap positions p and q of a chunk, the array swap used by Vector::swap
when both indices land in the same chunk. -/
def swapPos (chunk : Fin N → T) (p q : Fin N) : Fin N → T :=
  fun j => if j = p then chunk q else if j = q then chunk p else chunk j

/-- Source Vector::push: abort (none) when len is u32::MAX. When the new
index opens a chunk (offset 0) a fresh zeroed chunk with the element at
position 0 is stored; otherwise the existing chunk is fetched, aborting when
the store reports it missing, and the target position is overwritten. -/
def ChunkedVector.push [Inhabited T] (v : ChunkedVector T N) (element : T) :
    Option (ChunkedVector T N) :=
  if v.len = u32Max then none
  else
    let last_idx := v.len
    let cidx := chunk_index N last_idx
    if chunk_pos N last_idx = 0 then
      let chunk : Fin N → T := setPos (fun _ => default) ⟨0, N.pos⟩ element
      some { len := v.len + 1, values := v.values.set cidx (some chunk) }
    else
      match v.values.get cidx with
      | none => none
      | some chunk =>
          some { len := v.len + 1,
                 values := v.values.set cidx (some (setPos chunk (posFin N last_idx) element)) }

/-- Source Vector::pop: none result (no abort) on the empty vector. On a
nonempty vector with last index n: when the chunk offset of n is 0 the whole
chunk is removed from the store, aborting when it is missing, and its
position-0 element returned; otherwise the chunk is fetched and the element
at the offset extracted, its slot replaced with the zeroed placeholder, and a
missing chunk silently yields a none element. The length becomes n in every
non-aborting case. -/
def ChunkedVector.pop [Inhabited T] (v : ChunkedVector T N) :
    Option (Option T × ChunkedVector T N) :=
  match v.len with
  | 0 => some (none, v)
  | n + 1 =>
    let cidx := chunk_index N n
    if chunk_pos N n = 0 then
      match v.values.get cidx with
      | none => none
      | some chunk =>
          some (some (chunk ⟨0, N.pos⟩), { len := n, values := v.values.set cidx none })
    else
      match v.values.get cidx with
      | none => some (none, { len := n, values := v.values })
      | some chunk =>
          some (some (chunk (posFin N n)),
                { len := n, values := v.values.set cidx (some (setPos chunk (posFin N n) default)) })

/-- Source Vector::swap: abort when either index is out of bounds; no-op when
the indices coincide; an in-chunk array swap when both indices share a chunk;
otherwise both chunks are fetched, aborting when either is missing, and the
two elements exchanged across the chunks. -/
def ChunkedVector.swap (v : ChunkedVector T N) (a b : Nat) : Option (ChunkedVector T N) :=
  if v.len ≤ a ∨ v.len ≤ b then none
  else if a = b then some v
  else
    let a_idx := chunk_index N a
    if a_idx = chunk_index N b then
      match v.values.get a_idx with
      | none => none
      | some chunk =>
          some { v with
                 values := v.values.set a_idx (some (swapPos chunk (posFin N a) (posFin N b))) }
    else
      match v.values.get a_idx, v.values.get (chunk_index N b) with
      | some ca, some cb =>
          let m1 := v.values.set a_idx (some (setPos ca (posFin N a) (cb (posFin N b))))
          let m2 := m1.set (chunk_index N b) (some (setPos cb (posFin N b) (ca (posFin N a))))
          some { v with values := m2 }
      | _, _ => none

/-- Source Vector::swap_remove: abort on the empty vector; swap the target
index with the last index, then pop, aborting when the popped element is
reported absent. -/
def ChunkedVector.swap_remove [Inhabited T] (v : ChunkedVector T N) (index : Nat) :
    Option (T × ChunkedVector T N) :=
  if v.len = 0 then none
  else
    match v.swap index (v.len - 1) with
    | none => none
    | some v1 =>
      match v1.pop with
      | some (some x, v2) => some (x, v2)
      | _ => none

/-- Pushing a list of elements left to right, aborting when any push aborts.
This is the Extend impl from src/src/vec/impls.rs specialised to lists. -/
def pushList [Inhabited T] (v : ChunkedVector T N) : List T → Option (ChunkedVector T N)
  | [] => some v
  | x :: xs =>
    match v.push x with
    | none => none
    | some v1 => pushList v1 xs

/-- Popping n times, collecting the returned elements in pop order; aborts
when a pop aborts or reports an absent element. -/
def popN [Inhabited T] (v : ChunkedVector T N) : Nat → Option (List T × ChunkedVector T N)
  | 0 => some ([], v)
  | n + 1 =>
    match v.pop with
    | some (some x, v1) =>
      match popN v1 n with
      | some (l, v2) => some (x :: l, v2)
      | none => none
    | _ => none

/-- The chunk-existence invariant of the data model: a chunk is present in
the store exactly when it owns at least one logical index below len, that is,
when its first index k * N is below len. -/
def ChunkInv (v : ChunkedVector T N) : Prop :=
  ∀ k, (v.values.view k).isSome = true ↔ k * (N : Nat) < v.len

/-- The abstraction relation: the vector satisfies the chunk invariant, its
length matches the model list, and every get agrees with list lookup. -/
def Models (v : ChunkedVector T N) (l : List T) : Prop :=
  ChunkInv v ∧ v.len = l.length ∧ ∀ i, v.get i = l[i]?

theorem view_set {α : Type} (m : IndexMap α) (i : Nat) (x : Option α) (k : Nat) :
    (m.set i x).view k = if k = i then x else m.view k := rfl

theorem get_set {α : Type} (m : IndexMap α) (i : Nat) (x : Option α) (k : Nat) :
    (m.set i x).get k = if k = i then x else m.view k := rfl

theorem pfx_set {α : Type} (m : IndexMap α) (i : Nat) (x : Option α) :
    (m.set i x).pfx = m.pfx := rfl

theorem chunk_index_def (i : Nat) : chunk_index N i = i / (N : Nat) := rfl

theorem chunk_pos_def (i : Nat) : chunk_pos N i = i % (N : Nat) := rfl

theorem posFin_val (i : Nat) : (posFin N i).val = i % (N : Nat) := rfl

theorem div_mul_le (i : Nat) : chunk_index N i * (N : Nat) ≤ i :=
  Nat.div_mul_le_self i N

theorem div_lt_of_lt_mul {i c : Nat} (h : i < c * (N : Nat)) : chunk_index N i < c :=
  Nat.div_lt_of_lt_mul (by simpa [Nat.mul_comm] using h)

theorem chunk_decomp (i : Nat) : chunk_index N i * (N : Nat) + chunk_pos N i = i := by
  rw [chunk_index_def, chunk_pos_def, Nat.mul_comm]
  exact Nat.div_add_mod i (N : Nat)

theorem div_mul_lt_of_mod_ne_zero {i : Nat} (h : chunk_pos N i ≠ 0) :
    chunk_index N i * (N : Nat) < i := by
  have hd := chunk_decomp (N := N) i
  have hp : 0 < chunk_pos N i := Nat.pos_of_ne_zero h
  omega

theorem index_eq_of_chunk_eq {i j : Nat} (h1 : chunk_index N i = chunk_index N j)
    (h2 : chunk_pos N i = chunk_pos N j) : i = j := by
  have hi := chunk_decomp (N := N) i
  have hj := chunk_decomp (N := N) j
  rw [h1, h2] at hi
  omega

theorem posFin_eq_iff {i j : Nat} : posFin N i = posFin N j ↔ chunk_pos N i = chunk_pos N j := by
  constructor
  · intro h
    have := congrArg Fin.val h
    simpa [posFin, chunk_pos] using this
  · intro h
    apply Fin.ext
    simpa [posFin, chunk_pos] using h

theorem mul_ne_len_of_ne_div {k m : Nat} (hne : k ≠ chunk_index N m) : k * (N : Nat) ≠ m := by
  intro h
  apply hne
  simp only [chunk_index_def]
  subst h
  exact (Nat.mul_div_cancel (m := k) N.pos).symm

theorem get_of_le {v : ChunkedVector T N} {i : Nat} (h : v.len ≤ i) : v.get i = none := by
  simp [ChunkedVector.get, h]

theorem get_of_lt {v : ChunkedVector T N} {i : Nat} (h : i < v.len) :
    v.get i = (v.values.view (chunk_index N i)).map fun chunk => chunk (posFin N i) := by
  simp [ChunkedVector.get, IndexMap.get, Nat.not_le.mpr h]

theorem get_mut_eq_get (v : ChunkedVector T N) (i : Nat) : v.get_mut i = v.get i := rfl

theorem viewSome_of_inv {v : ChunkedVector T N} (hv : ChunkInv v) {k : Nat}
    (h : k * (N : Nat) < v.len) : ∃ c, v.values.view k = some c := by
  have hs := (hv k).mpr h
  cases heq : v.values.view k with
  | none => rw [heq] at hs; simp at hs
  | some c => exact ⟨c, rfl⟩

theorem chunkExists {v : ChunkedVector T N} (hv : ChunkInv v) {i : Nat} (h : i < v.len) :
    ∃ c, v.values.view (chunk_index N i) = some c :=
  viewSome_of_inv hv (lt_of_le_of_lt (div_mul_le i) h)

theorem chunkInv_new (pfx : List Nat) : ChunkInv (ChunkedVector.new (T := T) (N := N) pfx) := by
  intro k
  simp [ChunkedVector.new, IndexMap.new]

theorem models_new (pfx : List Nat) : Models (ChunkedVector.new (T := T) (N := N) pfx) [] := by
  refine ⟨chunkInv_new pfx, rfl, ?_⟩
  intro i
  simp [ChunkedVector.new, ChunkedVector.get]

theorem push_eq_new_chunk [Inhabited T] (v : ChunkedVector T N) (x : T)
    (hful : v.len ≠ u32Max) (hp0 : chunk_pos N v.len = 0) :
    v.push x = some (ChunkedVector.mk (v.len + 1)
      (v.values.set (chunk_index N v.len) (some (setPos (fun _ => default) ⟨0, N.pos⟩ x)))) := by
  simp [ChunkedVector.push, hful, hp0]

theorem push_eq_old_chunk [Inhabited T] (v : ChunkedVector T N) (x : T) (c : Fin N → T)
    (hful : v.len ≠ u32Max) (hp0 : chunk_pos N v.len ≠ 0)
    (hc : v.values.view (chunk_index N v.len) = some c) :
    v.push x = some (ChunkedVector.mk (v.len + 1)
      (v.values.set (chunk_index N v.len) (some (setPos c (posFin N v.len) x)))) := by
  simp only [ChunkedVector.push, if_neg hful, if_neg hp0]
  rw [show v.values.get (chunk_index N v.len) = some c from hc]

theorem push_eq_none_of_full [Inhabited T] (v : ChunkedVector T N) (x : T)
    (hful : v.len = u32Max) : v.push x = none := by
  simp [ChunkedVector.push, hful]

theorem push_eq_none_of_missing [Inhabited T] (v : ChunkedVector T N) (x : T)
    (hful : v.len ≠ u32Max) (hp0 : chunk_pos N v.len ≠ 0)
    (hc : v.values.view (chunk_index N v.len) = none) : v.push x = none := by
  simp only [ChunkedVector.push, if_neg hful, if_neg hp0]
  rw [show v.values.get (chunk_index N v.len) = none from hc]

theorem push_succeeds [Inhabited T] {v : ChunkedVector T N} (hv : ChunkInv v)
    (hlt : v.len < u32Max) (x : T) : ∃ v', v.push x = some v' := by
  by_cases hp0 : chunk_pos N v.len = 0
  · exact ⟨_, push_eq_new_chunk v x (Nat.ne_of_lt hlt) hp0⟩
  · obtain ⟨c, hc⟩ := viewSome_of_inv hv (div_mul_lt_of_mod_ne_zero hp0)
    exact ⟨_, push_eq_old_chunk v x c (Nat.ne_of_lt hlt) hp0 hc⟩

theorem cidx_mul_eq_of_pos_zero {m : Nat} (hp0 : chunk_pos N m = 0) :
    chunk_index N m * (N : Nat) = m := by
  have := chunk_decomp (N := N) m
  omega

theorem chunk_index_lt_of_lt_pos_zero {i m : Nat} (hp0 : chunk_pos N m = 0) (hi : i < m) :
    chunk_index N i < chunk_index N m :=
  div_lt_of_lt_mul (by rw [cidx_mul_eq_of_pos_zero hp0]; exact hi)

theorem push_models [Inhabited T] {v v' : ChunkedVector T N} {l : List T} {x : T}
    (hm : Models v l) (hp : v.push x = some v') : Models v' (l ++ [x]) := by
  obtain ⟨hinv, hlen, hget⟩ := hm
  have hful : v.len ≠ u32Max := by
    intro h
    rw [push_eq_none_of_full v x h] at hp
    exact Option.noConfusion hp
  by_cases hp0 : chunk_pos N v.len = 0
  · rw [push_eq_new_chunk v x hful hp0, Option.some.injEq] at hp
    subst hp
    have hmul := cidx_mul_eq_of_pos_zero (N := N) hp0
    refine ⟨?_, by simp [hlen], ?_⟩
    · intro k
      dsimp only
      rw [view_set]
      by_cases hke : k = chunk_index N v.len
      · subst hke
        rw [if_pos rfl]
        exact ⟨fun _ => by omega, fun _ => rfl⟩
      · have hne := mul_ne_len_of_ne_div (N := N) (m := v.len) hke
        rw [if_neg hke, hinv k]
        omega
    · intro i
      rcases Nat.lt_trichotomy i v.len with hi | hi | hi
      · have hi' : i < v.len + 1 := by omega
        rw [get_of_lt (v := _) hi']
        dsimp only
        have hne : chunk_index N i ≠ chunk_index N v.len :=
          Nat.ne_of_lt (chunk_index_lt_of_lt_pos_zero hp0 hi)
        rw [view_set, if_neg hne, ← get_of_lt hi, hget i,
          List.getElem?_append_left (show i < l.length by omega)]
      · have hi' : i < v.len + 1 := by omega
        rw [get_of_lt (v := _) hi', hi]
        dsimp only
        rw [view_set, if_pos rfl, Option.map_some']
        have hfin : posFin N v.len = ⟨0, N.pos⟩ := Fin.ext (by simpa [posFin_val] using hp0)
        rw [hfin]
        simp only [setPos, if_pos rfl, if_true]
        rw [hlen]
        exact (List.getElem?_concat_length l x).symm
      · rw [get_of_le (by simpa using hi)]
        exact (List.getElem?_eq_none (by simp; omega)).symm
  · have hcs : ∃ c, v.values.view (chunk_index N v.len) = some c := by
      cases hcv : v.values.view (chunk_index N v.len) with
      | none =>
        rw [push_eq_none_of_missing v x hful hp0 hcv] at hp
        exact Option.noConfusion hp
      | some c => exact ⟨c, rfl⟩
    obtain ⟨c, hc⟩ := hcs
    rw [push_eq_old_chunk v x c hful hp0 hc, Option.some.injEq] at hp
    subst hp
    have hmlt := div_mul_lt_of_mod_ne_zero (N := N) hp0
    refine ⟨?_, by simp [hlen], ?_⟩
    · intro k
      dsimp only
      rw [view_set]
      by_cases hke : k = chunk_index N v.len
      · subst hke
        rw [if_pos rfl]
        exact ⟨fun _ => by omega, fun _ => rfl⟩
      · have hne := mul_ne_len_of_ne_div (N := N) (m := v.len) hke
        rw [if_neg hke, hinv k]
        omega
    · intro i
      rcases Nat.lt_trichotomy i v.len with hi | hi | hi
      · have hi' : i < v.len + 1 := by omega
        rw [get_of_lt (v := _) hi']
        dsimp only
        rw [view_set]
        by_cases hke : chunk_index N i = chunk_index N v.len
        · rw [if_pos hke, Option.map_some']
          have hpne : posFin N i ≠ posFin N v.len := by
            intro he
            have := index_eq_of_chunk_eq hke (posFin_eq_iff.mp he)
            omega
          simp only [setPos, if_neg hpne]
          have hgi : v.get i = some (c (posFin N i)) := by
            rw [get_of_lt hi]
            show (v.values.view (chunk_index N i)).map _ = _
            rw [hke, hc, Option.map_some']
          rw [← hgi, hget i, List.getElem?_append_left (show i < l.length by omega)]
        · rw [if_neg hke, ← get_of_lt hi, hget i,
            List.getElem?_append_left (show i < l.length by omega)]
      · have hi' : i < v.len + 1 := by omega
        rw [get_of_lt (v := _) hi', hi]
        dsimp only
        rw [view_set, if_pos rfl, Option.map_some']
        simp only [setPos, if_pos rfl, if_true]
        rw [hlen]
        exact (List.getElem?_concat_length l x).symm
      · rw [get_of_le (by simpa using hi)]
        exact (List.getElem?_eq_none (by simp; omega)).symm

theorem pop_eq_empty [Inhabited T] (v : ChunkedVector T N) (h : v.len = 0) :
    v.pop = some (none, v) := by
  simp [ChunkedVector.pop, h]

theorem pop_eq_remove_chunk [Inhabited T] (v : ChunkedVector T N) (n : Nat) (c : Fin N → T)
    (hlen : v.len = n + 1) (hp0 : chunk_pos N n = 0)
    (hc : v.values.view (chunk_index N n) = some c) :
    v.pop = some (some (c ⟨0, N.pos⟩),
      ChunkedVector.mk n (v.values.set (chunk_index N n) none)) := by
  simp only [ChunkedVector.pop, hlen, hp0, if_pos rfl, if_true]
  rw [show v.values.get (chunk_index N n) = some c from hc]

theorem pop_eq_none_of_missing_zero [Inhabited T] (v : ChunkedVector T N) (n : Nat)
    (hlen : v.len = n + 1) (hp0 : chunk_pos N n = 0)
    (hc : v.values.view (chunk_index N n) = none) : v.pop = none := by
  simp only [ChunkedVector.pop, hlen, hp0, if_pos rfl, if_true]
  rw [show v.values.get (chunk_index N n) = none from hc]

theorem pop_eq_mid_chunk [Inhabited T] (v : ChunkedVector T N) (n : Nat) (c : Fin N → T)
    (hlen : v.len = n + 1) (hp0 : chunk_pos N n ≠ 0)
    (hc : v.values.view (chunk_index N n) = some c) :
    v.pop = some (some (c (posFin N n)),
      ChunkedVector.mk n (v.values.set (chunk_index N n) (some (setPos c (posFin N n) default)))) := by
  simp only [ChunkedVector.pop, hlen, if_neg hp0]
  rw [show v.values.get (chunk_index N n) = some c from hc]

theorem pop_eq_mid_chunk_missing [Inhabited T] (v : ChunkedVector T N) (n : Nat)
    (hlen : v.len = n + 1) (hp0 : chunk_pos N n ≠ 0)
    (hc : v.values.view (chunk_index N n) = none) :
    v.pop = some (none, ChunkedVector.mk n v.values) := by
  simp only [ChunkedVector.pop, hlen, if_neg hp0]
  rw [show v.values.get (chunk_index N n) = none from hc]

theorem pop_frame_aux [Inhabited T] {v v' : ChunkedVector T N} {r : Option T} {n : Nat}
    (hlen : v.len = n + 1) (hp : v.pop = some (r, v')) :
    v'.len = n ∧ (∀ k, k ≠ chunk_index N n → v'.values.view k = v.values.view k) ∧
    (∀ j, j < n → v'.get j = v.get j) := by
  by_cases hp0 : chunk_pos N n = 0
  · cases hc : v.values.view (chunk_index N n) with
    | none =>
      rw [pop_eq_none_of_missing_zero v n hlen hp0 hc] at hp
      exact Option.noConfusion hp
    | some c =>
      rw [pop_eq_remove_chunk v n c hlen hp0 hc, Option.some.injEq, Prod.mk.injEq] at hp
      obtain ⟨-, hv'⟩ := hp
      subst hv'
      refine ⟨rfl, ?_, ?_⟩
      · intro k hk
        dsimp only
        rw [view_set, if_neg hk]
      · intro j hj
        have hj1 : j < v.len := by omega
        rw [get_of_lt (v := _) hj, get_of_lt hj1]
        dsimp only
        have hne : chunk_index N j ≠ chunk_index N n :=
          Nat.ne_of_lt (chunk_index_lt_of_lt_pos_zero hp0 hj)
        rw [view_set, if_neg hne]
  · cases hc : v.values.view (chunk_index N n) with
    | none =>
      rw [pop_eq_mid_chunk_missing v n hlen hp0 hc, Option.some.injEq, Prod.mk.injEq] at hp
      obtain ⟨-, hv'⟩ := hp
      subst hv'
      refine ⟨rfl, fun k _ => rfl, ?_⟩
      intro j hj
      have hj1 : j < v.len := by omega
      rw [get_of_lt (v := _) hj, get_of_lt hj1]
    | some c =>
      rw [pop_eq_mid_chunk v n c hlen hp0 hc, Option.some.injEq, Prod.mk.injEq] at hp
      obtain ⟨-, hv'⟩ := hp
      subst hv'
      refine ⟨rfl, ?_, ?_⟩
      · intro k hk
        dsimp only
        rw [view_set, if_neg hk]
      · intro j hj
        have hj1 : j < v.len := by omega
        rw [get_of_lt (v := _) hj, get_of_lt hj1]
        dsimp only
        rw [view_set]
        by_cases hke : chunk_index N j = chunk_index N n
        · rw [if_pos hke, Option.map_some']
          have hpne : posFin N j ≠ posFin N n := by
            intro he
            have := index_eq_of_chunk_eq hke (posFin_eq_iff.mp he)
            omega
          simp only [setPos, if_neg hpne]
          show _ = (v.values.view (chunk_index N j)).map _
          rw [hke, hc, Option.map_some']
        · rw [if_neg hke]

theorem pop_models_nil [Inhabited T] {v : ChunkedVector T N} (hm : Models v []) :
    v.pop = some (none, v) :=
  pop_eq_empty v (by simpa using hm.2.1)

theorem pop_models_concat [Inhabited T] {v : ChunkedVector T N} {l : List T} {x : T}
    (hm : Models v (l ++ [x])) : ∃ v', v.pop = some (some x, v') ∧ Models v' l := by
  obtain ⟨hinv, hlen, hget⟩ := hm
  have hlen' : v.len = l.length + 1 := by simpa using hlen
  have hcx : ∃ c, v.values.view (chunk_index N l.length) = some c ∧ c (posFin N l.length) = x := by
    have h1 := hget l.length
    rw [get_of_lt (by omega), List.getElem?_concat_length] at h1
    cases hc : v.values.view (chunk_index N l.length) with
    | none => rw [hc] at h1; simp at h1
    | some c =>
      rw [hc, Option.map_some', Option.some.injEq] at h1
      exact ⟨c, rfl, h1⟩
  obtain ⟨c, hc, hcval⟩ := hcx
  by_cases hp0 : chunk_pos N l.length = 0
  · have hpe := pop_eq_remove_chunk v l.length c hlen' hp0 hc
    have hfin : (⟨0, N.pos⟩ : Fin N) = posFin N l.length :=
      Fin.ext (by simpa [posFin_val] using hp0.symm)
    have hfr := pop_frame_aux hlen' hpe
    refine ⟨ChunkedVector.mk l.length (v.values.set (chunk_index N l.length) none),
      by rw [hpe, hfin, hcval], ?_, rfl, ?_⟩
    · intro k
      dsimp only
      rw [view_set]
      by_cases hke : k = chunk_index N l.length
      · subst hke
        rw [if_pos rfl]
        simp only [Option.isSome_none]
        constructor
        · intro h; simp at h
        · intro h
          exact absurd h (by have := cidx_mul_eq_of_pos_zero (N := N) hp0; omega)
      · rw [if_neg hke, hinv k, hlen']
        have := mul_ne_len_of_ne_div (N := N) (m := l.length) hke
        omega
    · intro i
      by_cases hi : i < l.length
      · rw [hfr.2.2 i hi, hget i, List.getElem?_append_left hi]
      · rw [get_of_le (v := _) (by dsimp only; omega)]
        exact (List.getElem?_eq_none (by omega)).symm
  · have hpe := pop_eq_mid_chunk v l.length c hlen' hp0 hc
    have hfr := pop_frame_aux hlen' hpe
    refine ⟨ChunkedVector.mk l.length
        (v.values.set (chunk_index N l.length) (some (setPos c (posFin N l.length) default))),
      by rw [hpe, hcval], ?_, rfl, ?_⟩
    · intro k
      dsimp only
      rw [view_set]
      by_cases hke : k = chunk_index N l.length
      · subst hke
        rw [if_pos rfl]
        have := div_mul_lt_of_mod_ne_zero (N := N) hp0
        exact ⟨fun _ => this, fun _ => rfl⟩
      · rw [if_neg hke, hinv k, hlen']
        have := mul_ne_len_of_ne_div (N := N) (m := l.length) hke
        omega
    · intro i
      by_cases hi : i < l.length
      · rw [hfr.2.2 i hi, hget i, List.getElem?_append_left hi]
      · rw [get_of_le (v := _) (by dsimp only; omega)]
        exact (List.getElem?_eq_none (by omega)).symm

theorem swap_eq_oob (v : ChunkedVector T N) (a b : Nat) (h : v.len ≤ a ∨ v.len ≤ b) :
    v.swap a b = none := by
  simp only [ChunkedVector.swap, if_pos h]

theorem swap_eq_self (v : ChunkedVector T N) (a : Nat) (ha : a < v.len) :
    v.swap a a = some v := by
  simp only [ChunkedVector.swap, if_neg (by omega : ¬(v.len ≤ a ∨ v.len ≤ a)), if_pos rfl,
    if_true]

theorem swap_eq_same_chunk (v : ChunkedVector T N) (a b : Nat) (c : Fin N → T)
    (ha : a < v.len) (hb : b < v.len) (hab : a ≠ b)
    (hidx : chunk_index N a = chunk_index N b)
    (hc : v.values.view (chunk_index N a) = some c) :
    v.swap a b = some (ChunkedVector.mk v.len
      (v.values.set (chunk_index N a) (some (swapPos c (posFin N a) (posFin N b))))) := by
  simp only [ChunkedVector.swap, if_neg (by omega : ¬(v.len ≤ a ∨ v.len ≤ b)), if_neg hab,
    if_pos hidx]
  rw [show v.values.get (chunk_index N a) = some c from hc]

theorem swap_eq_none_same_missing (v : ChunkedVector T N) (a b : Nat)
    (ha : a < v.len) (hb : b < v.len) (hab : a ≠ b)
    (hidx : chunk_index N a = chunk_index N b)
    (hc : v.values.view (chunk_index N a) = none) : v.swap a b = none := by
  simp only [ChunkedVector.swap, if_neg (by omega : ¬(v.len ≤ a ∨ v.len ≤ b)), if_neg hab,
    if_pos hidx]
  rw [show v.values.get (chunk_index N a) = none from hc]

theorem swap_eq_cross (v : ChunkedVector T N) (a b : Nat) (ca cb : Fin N → T)
    (ha : a < v.len) (hb : b < v.len) (hab : a ≠ b)
    (hidx : chunk_index N a ≠ chunk_index N b)
    (hca : v.values.view (chunk_index N a) = some ca)
    (hcb : v.values.view (chunk_index N b) = some cb) :
    v.swap a b = some (ChunkedVector.mk v.len
      ((v.values.set (chunk_index N a) (some (setPos ca (posFin N a) (cb (posFin N b))))).set
        (chunk_index N b) (some (setPos cb (posFin N b) (ca (posFin N a)))))) := by
  simp only [ChunkedVector.swap, if_neg (by omega : ¬(v.len ≤ a ∨ v.len ≤ b)), if_neg hab,
    if_neg hidx]
  rw [show v.values.get (chunk_index N a) = some ca from hca,
    show v.values.get (chunk_index N b) = some cb from hcb]

theorem swap_eq_none_cross_missing_a (v : ChunkedVector T N) (a b : Nat)
    (ha : a < v.len) (hb : b < v.len) (hab : a ≠ b)
    (hidx : chunk_index N a ≠ chunk_index N b)
    (hca : v.values.view (chunk_index N a) = none) : v.swap a b = none := by
  simp only [ChunkedVector.swap, if_neg (by omega : ¬(v.len ≤ a ∨ v.len ≤ b)), if_neg hab,
    if_neg hidx]
  rw [show v.values.get (chunk_index N a) = none from hca]

theorem swap_eq_none_cross_missing_b (v : ChunkedVector T N) (a b : Nat) (ca : Fin N → T)
    (ha : a < v.len) (hb : b < v.len) (hab : a ≠ b)
    (hidx : chunk_index N a ≠ chunk_index N b)
    (hca : v.values.view (chunk_index N a) = some ca)
    (hcb : v.values.view (chunk_index N b) = none) : v.swap a b = none := by
  simp only [ChunkedVector.swap, if_neg (by omega : ¬(v.len ≤ a ∨ v.len ≤ b)), if_neg hab,
    if_neg hidx]
  rw [show v.values.get (chunk_index N a) = some ca from hca,
    show v.values.get (chunk_index N b) = none from hcb]

theorem get_mk_of_lt {n : Nat} {m : IndexMap (Fin N → T)} {i : Nat} (h : i < n) :
    (ChunkedVector.mk n m).get i = (m.view (chunk_index N i)).map fun chunk => chunk (posFin N i) :=
  get_of_lt (v := ChunkedVector.mk n m) h

theorem get_mk_of_le {n : Nat} {m : IndexMap (Fin N → T)} {i : Nat} (h : n ≤ i) :
    (ChunkedVector.mk n m).get i = none :=
  get_of_le (v := ChunkedVector.mk n m) h

theorem chunkInv_of_same_support {v w : ChunkedVector T N} (hv : ChunkInv v)
    (hlen : w.len = v.len)
    (hs : ∀ k, (w.values.view k).isSome = (v.values.view k).isSome) :
    ChunkInv w := by
  intro k
  rw [hs k, hlen]
  exact hv k

theorem posFin_ne_of_same_chunk {a b : Nat} (hab : a ≠ b)
    (hidx : chunk_index N a = chunk_index N b) : posFin N a ≠ posFin N b := by
  intro he
  exact hab (index_eq_of_chunk_eq hidx (posFin_eq_iff.mp he))

theorem swap_spec {v : ChunkedVector T N} (hv : ChunkInv v) {a b : Nat}
    (ha : a < v.len) (hb : b < v.len) :
    ∃ v', v.swap a b = some v' ∧ v'.len = v.len ∧
      (∀ k, (v'.values.view k).isSome = (v.values.view k).isSome) ∧
      v'.get a = v.get b ∧ v'.get b = v.get a ∧
      ∀ j, j ≠ a → j ≠ b → v'.get j = v.get j := by
  by_cases hab : a = b
  · subst hab
    exact ⟨v, swap_eq_self v a ha, rfl, fun k => rfl, rfl, rfl, fun j _ _ => rfl⟩
  obtain ⟨ca, hca⟩ := chunkExists hv ha
  by_cases hidx : chunk_index N a = chunk_index N b
  · have hpne : posFin N a ≠ posFin N b := posFin_ne_of_same_chunk hab hidx
    refine ⟨_, swap_eq_same_chunk v a b ca ha hb hab hidx hca, rfl, ?_, ?_, ?_, ?_⟩
    · intro k
      dsimp only
      rw [view_set]
      by_cases hke : k = chunk_index N a
      · subst hke
        rw [if_pos rfl, hca]
        rfl
      · rw [if_neg hke]
    · rw [get_mk_of_lt ha, get_of_lt hb, view_set, if_pos rfl, ← hidx, hca,
        Option.map_some', Option.map_some']
      simp only [swapPos, if_pos rfl, if_true]
    · rw [get_mk_of_lt hb, get_of_lt ha, ← hidx, view_set, if_pos rfl, hca,
        Option.map_some', Option.map_some']
      simp only [swapPos, if_neg (Ne.symm hpne), if_pos rfl, if_true]
    · intro j hja hjb
      by_cases hj : j < v.len
      · rw [get_mk_of_lt hj, get_of_lt hj, view_set]
        by_cases hkj : chunk_index N j = chunk_index N a
        · have hj_a : posFin N j ≠ posFin N a := posFin_ne_of_same_chunk hja hkj
          have hj_b : posFin N j ≠ posFin N b := posFin_ne_of_same_chunk hjb (hkj.trans hidx)
          rw [if_pos hkj, hkj, hca, Option.map_some', Option.map_some']
          simp only [swapPos, if_neg hj_a, if_neg hj_b]
        · rw [if_neg hkj]
      · rw [get_mk_of_le (by omega), get_of_le (by omega)]
  · obtain ⟨cb, hcb⟩ := chunkExists hv hb
    refine ⟨_, swap_eq_cross v a b ca cb ha hb hab hidx hca hcb, rfl, ?_, ?_, ?_, ?_⟩
    · intro k
      dsimp only
      rw [view_set, view_set]
      by_cases hkb : k = chunk_index N b
      · subst hkb
        rw [if_pos rfl, hcb]
        rfl
      · rw [if_neg hkb]
        by_cases hka : k = chunk_index N a
        · subst hka
          rw [if_pos rfl, hca]
          rfl
        · rw [if_neg hka]
    · rw [get_mk_of_lt ha, get_of_lt hb, view_set, if_neg hidx, view_set, if_pos rfl, hcb,
        Option.map_some', Option.map_some']
      simp only [setPos, if_pos rfl, if_true]
    · rw [get_mk_of_lt hb, get_of_lt ha, view_set, if_pos rfl, hca,
        Option.map_some', Option.map_some']
      simp only [setPos, if_pos rfl, if_true]
    · intro j hja hjb
      by_cases hj : j < v.len
      · rw [get_mk_of_lt hj, get_of_lt hj, view_set]
        by_cases hkb : chunk_index N j = chunk_index N b
        · have hj_b : posFin N j ≠ posFin N b := posFin_ne_of_same_chunk hjb hkb
          rw [if_pos hkb, hkb, hcb, Option.map_some', Option.map_some']
          simp only [setPos, if_neg hj_b]
        · rw [if_neg hkb, view_set]
          by_cases hka : chunk_index N j = chunk_index N a
          · have hj_a : posFin N j ≠ posFin N a := posFin_ne_of_same_chunk hja hka
            rw [if_pos hka, hka, hca, Option.map_some', Option.map_some']
            simp only [setPos, if_neg hj_a]
          · rw [if_neg hka]
      · rw [get_mk_of_le (by omega), get_of_le (by omega)]

theorem swap_support {v v' : ChunkedVector T N} {a b : Nat} (hp : v.swap a b = some v') :
    v'.len = v.len ∧ ∀ k, (v'.values.view k).isSome = (v.values.view k).isSome := by
  by_cases hoob : v.len ≤ a ∨ v.len ≤ b
  · rw [swap_eq_oob v a b hoob] at hp
    exact Option.noConfusion hp
  have ha : a < v.len := by omega
  have hb : b < v.len := by omega
  by_cases hab : a = b
  · subst hab
    rw [swap_eq_self v a ha, Option.some.injEq] at hp
    subst hp
    exact ⟨rfl, fun k => rfl⟩
  by_cases hidx : chunk_index N a = chunk_index N b
  · cases hca : v.values.view (chunk_index N a) with
    | none =>
      rw [swap_eq_none_same_missing v a b ha hb hab hidx hca] at hp
      exact Option.noConfusion hp
    | some ca =>
      rw [swap_eq_same_chunk v a b ca ha hb hab hidx hca, Option.some.injEq] at hp
      subst hp
      refine ⟨rfl, ?_⟩
      intro k
      dsimp only
      rw [view_set]
      by_cases hke : k = chunk_index N a
      · subst hke
        rw [if_pos rfl, hca]
        rfl
      · rw [if_neg hke]
  · cases hca : v.values.view (chunk_index N a) with
    | none =>
      rw [swap_eq_none_cross_missing_a v a b ha hb hab hidx hca] at hp
      exact Option.noConfusion hp
    | some ca =>
      cases hcb : v.values.view (chunk_index N b) with
      | none =>
        rw [swap_eq_none_cross_missing_b v a b ca ha hb hab hidx hca hcb] at hp
        exact Option.noConfusion hp
      | some cb =>
        rw [swap_eq_cross v a b ca cb ha hb hab hidx hca hcb, Option.some.injEq] at hp
        subst hp
        refine ⟨rfl, ?_⟩
        intro k
        dsimp only
        rw [view_set, view_set]
        by_cases hkb : k = chunk_index N b
        · subst hkb
          rw [if_pos rfl, hcb]
          rfl
        · rw [if_neg hkb]
          by_cases hka : k = chunk_index N a
          · subst hka
            rw [if_pos rfl, hca]
            rfl
          · rw [if_neg hka]

theorem swap_chunkInv {v v' : ChunkedVector T N} {a b : Nat} (hv : ChunkInv v)
    (hp : v.swap a b = some v') : ChunkInv v' :=
  chunkInv_of_same_support hv (swap_support hp).1 (swap_support hp).2

theorem push_chunkInv [Inhabited T] {v v' : ChunkedVector T N} {x : T} (hv : ChunkInv v)
    (hp : v.push x = some v') : ChunkInv v' := by
  have hful : v.len ≠ u32Max := by
    intro h
    rw [push_eq_none_of_full v x h] at hp
    exact Option.noConfusion hp
  by_cases hp0 : chunk_pos N v.len = 0
  · rw [push_eq_new_chunk v x hful hp0, Option.some.injEq] at hp
    subst hp
    have hmul := cidx_mul_eq_of_pos_zero (N := N) hp0
    intro k
    dsimp only
    rw [view_set]
    by_cases hke : k = chunk_index N v.len
    · subst hke
      rw [if_pos rfl]
      exact ⟨fun _ => by omega, fun _ => rfl⟩
    · have hne := mul_ne_len_of_ne_div (N := N) (m := v.len) hke
      rw [if_neg hke, hv k]
      omega
  · cases hc : v.values.view (chunk_index N v.len) with
    | none =>
      rw [push_eq_none_of_missing v x hful hp0 hc] at hp
      exact Option.noConfusion hp
    | some c =>
      rw [push_eq_old_chunk v x c hful hp0 hc, Option.some.injEq] at hp
      subst hp
      have hmlt := div_mul_lt_of_mod_ne_zero (N := N) hp0
      intro k
      dsimp only
      rw [view_set]
      by_cases hke : k = chunk_index N v.len
      · subst hke
        rw [if_pos rfl]
        exact ⟨fun _ => by omega, fun _ => rfl⟩
      · have hne := mul_ne_len_of_ne_div (N := N) (m := v.len) hke
        rw [if_neg hke, hv k]
        omega

theorem pop_chunkInv [Inhabited T] {v v' : ChunkedVector T N} {r : Option T} (hv : ChunkInv v)
    (hp : v.pop = some (r, v')) : ChunkInv v' := by
  cases hvl : v.len with
  | zero =>
    rw [pop_eq_empty v hvl, Option.some.injEq, Prod.mk.injEq] at hp
    obtain ⟨-, hv'⟩ := hp
    subst hv'
    exact hv
  | succ n =>
    by_cases hp0 : chunk_pos N n = 0
    · cases hc : v.values.view (chunk_index N n) with
      | none =>
        rw [pop_eq_none_of_missing_zero v n hvl hp0 hc] at hp
        exact Option.noConfusion hp
      | some c =>
        rw [pop_eq_remove_chunk v n c hvl hp0 hc, Option.some.injEq, Prod.mk.injEq] at hp
        obtain ⟨-, hv'⟩ := hp
        subst hv'
        have hmul := cidx_mul_eq_of_pos_zero (N := N) hp0
        intro k
        dsimp only
        rw [view_set]
        by_cases hke : k = chunk_index N n
        · subst hke
          rw [if_pos rfl]
          simp only [Option.isSome_none]
          constructor
          · intro h; simp at h
          · intro h; exact absurd h (by omega)
        · have hne := mul_ne_len_of_ne_div (N := N) (m := n) hke
          rw [if_neg hke, hv k, hvl]
          omega
    · have hmlt := div_mul_lt_of_mod_ne_zero (N := N) hp0
      cases hc : v.values.view (chunk_index N n) with
      | none =>
        rw [pop_eq_mid_chunk_missing v n hvl hp0 hc, Option.some.injEq, Prod.mk.injEq] at hp
        obtain ⟨-, hv'⟩ := hp
        subst hv'
        exfalso
        have := (hv (chunk_index N n)).mpr (by omega)
        rw [hc] at this
        simp at this
      | some c =>
        rw [pop_eq_mid_chunk v n c hvl hp0 hc, Option.some.injEq, Prod.mk.injEq] at hp
        obtain ⟨-, hv'⟩ := hp
        subst hv'
        intro k
        dsimp only
        rw [view_set]
        by_cases hke : k = chunk_index N n
        · subst hke
          rw [if_pos rfl]
          exact ⟨fun _ => by omega, fun _ => rfl⟩
        · have hne := mul_ne_len_of_ne_div (N := N) (m := n) hke
          rw [if_neg hke, hv k, hvl]
          omega

theorem swap_remove_chunkInv [Inhabited T] {v v' : ChunkedVector T N} {i : Nat} {x : T}
    (hv : ChunkInv v) (hp : v.swap_remove i = some (x, v')) : ChunkInv v' := by
  rw [ChunkedVector.swap_remove] at hp
  by_cases h0 : v.len = 0
  · rw [if_pos h0] at hp
    exact Option.noConfusion hp
  rw [if_neg h0] at hp
  cases hsw : v.swap i (v.len - 1) with
  | none => rw [hsw] at hp; exact Option.noConfusion hp
  | some v1 =>
    rw [hsw] at hp
    dsimp only at hp
    have hv1 : ChunkInv v1 := swap_chunkInv hv hsw
    cases hpp : v1.pop with
    | none => rw [hpp] at hp; exact Option.noConfusion hp
    | some res =>
      rw [hpp] at hp
      obtain ⟨ro, v2⟩ := res
      cases ro with
      | none => exact Option.noConfusion hp
      | some y =>
        simp only [Option.some.injEq, Prod.mk.injEq] at hp
        obtain ⟨-, hv'⟩ := hp
        subst hv'
        exact pop_chunkInv hv1 hpp

theorem clear_view (v : ChunkedVector T N) (k : Nat) :
    (v.clear).values.view k = if k < v.len then none else v.values.view k := by
  rw [ChunkedVector.clear]
  dsimp only
  have main : ∀ (n : Nat) (m : IndexMap (Fin N → T)),
      ((List.range n).foldl (fun m2 i => m2.set i none) m).view k =
        if k < n then none else m.view k := by
    intro n
    induction n with
    | zero => intro m; simp
    | succ n ih =>
      intro m
      rw [List.range_succ, List.foldl_append, List.foldl_cons, List.foldl_nil, view_set]
      rw [ih]
      by_cases hkn : k = n
      · subst hkn
        simp [Nat.lt_succ_self]
      · by_cases hlt : k < n
        · simp only [if_pos hlt, if_pos (by omega : k < n + 1), if_neg hkn]
        · simp only [if_neg hlt, if_neg hkn, if_neg (by omega : ¬ k < n + 1)]
  exact main v.len v.values

theorem clear_chunkInv (v : ChunkedVector T N) (hv : ChunkInv v) : ChunkInv (v.clear) := by
  intro k
  rw [clear_view]
  by_cases hk : k < v.len
  · rw [if_pos hk]
    simp only [Option.isSome_none, ChunkedVector.clear]
    constructor
    · intro h; simp at h
    · intro h; omega
  · rw [if_neg hk]
    have hks : (v.values.view k).isSome = true ↔ k * (N : Nat) < v.len := hv k
    have hkN : v.len ≤ k * (N : Nat) := by
      calc v.len ≤ k := by omega
      _ ≤ k * (N : Nat) := Nat.le_mul_of_pos_right k N.pos
    constructor
    · intro h
      exact absurd (hks.mp h) (by omega)
    · intro h
      exact absurd h (by simp [ChunkedVector.clear])

theorem pop_spec [Inhabited T] {v : ChunkedVector T N} (hv : ChunkInv v) {n : Nat}
    (hlen : v.len = n + 1) :
    ∃ x v', v.pop = some (some x, v') ∧ v.get n = some x ∧ v'.len = n ∧ ChunkInv v' ∧
      ∀ j, j < n → v'.get j = v.get j := by
  obtain ⟨c, hc⟩ : ∃ c, v.values.view (chunk_index N n) = some c :=
    viewSome_of_inv hv (by have := div_mul_le (N := N) n; omega)
  have hgn : v.get n = some (c (posFin N n)) := by
    rw [get_of_lt (by omega), hc, Option.map_some']
  by_cases hp0 : chunk_pos N n = 0
  · have hpe := pop_eq_remove_chunk v n c hlen hp0 hc
    have hfin : (⟨0, N.pos⟩ : Fin N) = posFin N n :=
      Fin.ext (by simpa [posFin_val] using hp0.symm)
    rw [hfin] at hpe
    have hfr := pop_frame_aux hlen hpe
    exact ⟨c (posFin N n), _, hpe, hgn, hfr.1, pop_chunkInv hv hpe, hfr.2.2⟩
  · have hpe := pop_eq_mid_chunk v n c hlen hp0 hc
    have hfr := pop_frame_aux hlen hpe
    exact ⟨c (posFin N n), _, hpe, hgn, hfr.1, pop_chunkInv hv hpe, hfr.2.2⟩

theorem swap_remove_spec_aux [Inhabited T] {v : ChunkedVector T N} (hv : ChunkInv v) {i : Nat}
    (hi : i < v.len) :
    ∃ x v', v.swap_remove i = some (x, v') ∧ v.get i = some x ∧ v'.len = v.len - 1 ∧
      ChunkInv v' ∧
      (i < v.len - 1 → v'.get i = v.get (v.len - 1)) ∧
      ∀ j, j < v.len - 1 → j ≠ i → v'.get j = v.get j := by
  have h0 : ¬ v.len = 0 := by omega
  have hlast : v.len - 1 < v.len := by omega
  obtain ⟨v1, hsw, hlen1, hsup1, hga, hgb, hgo⟩ := swap_spec hv hi hlast
  have hv1 : ChunkInv v1 := chunkInv_of_same_support hv hlen1 hsup1
  have hlen1' : v1.len = (v.len - 1) + 1 := by omega
  obtain ⟨x, v2, hpp, hgx, hlen2, hv2, hfr⟩ := pop_spec hv1 hlen1'
  have hres : v.swap_remove i = some (x, v2) := by
    rw [ChunkedVector.swap_remove, if_neg h0, hsw]
    dsimp only
    rw [hpp]
  refine ⟨x, v2, hres, ?_, by omega, hv2, ?_, ?_⟩
  · rw [← hgb]
    exact hgx
  · intro hilt
    rw [hfr i hilt, hga]
  · intro j hj hji
    rw [hfr j hj, hgo j hji (by omega)]

theorem pushList_models [Inhabited T] :
    ∀ (xs : List T) (v : ChunkedVector T N) (l : List T) (v' : ChunkedVector T N),
      Models v l → pushList v xs = some v' → Models v' (l ++ xs) := by
  intro xs
  induction xs with
  | nil =>
    intro v l v' hm hp
    simp only [pushList, Option.some.injEq] at hp
    subst hp
    simpa using hm
  | cons x xs ih =>
    intro v l v' hm hp
    simp only [pushList] at hp
    cases hpx : v.push x with
    | none => rw [hpx] at hp; exact Option.noConfusion hp
    | some v1 =>
      rw [hpx] at hp
      have h1 := push_models hm hpx
      have h2 := ih v1 (l ++ [x]) v' h1 hp
      simpa [List.append_assoc] using h2

theorem popN_models [Inhabited T] :
    ∀ (l : List T) (v : ChunkedVector T N), Models v l →
      ∃ v', popN v l.length = some (l.reverse, v') ∧ Models v' [] := by
  intro l
  induction l using List.reverseRecOn with
  | nil =>
    intro v hm
    exact ⟨v, by simp [popN], hm⟩
  | append_singleton l x ih =>
    intro v hm
    obtain ⟨v1, hpp, hm1⟩ := pop_models_concat hm
    obtain ⟨v', hrest, hm'⟩ := ih v1 hm1
    refine ⟨v', ?_, hm'⟩
    have hlen : (l ++ [x]).length = l.length + 1 := by simp
    rw [hlen]
    simp only [popN]
    rw [hpp]
    dsimp only
    rw [hrest]
    simp

/-- The half-open index range start..stop tracked by both iterators, the
Range of u32 from src/src/vec/iter.rs. -/
structure IterRange : Type where
  start : Nat
  stop : Nat

/-- Remaining count of a range, Range::len. -/
def IterRange.remaining (r : IterRange) : Nat := r.stop - r.start

/-- Iterator::nth on a u32 Range: yield start + n and advance past it when it
is inside the range, otherwise exhaust the range (start becomes stop). -/
def rangeNth (r : IterRange) (n : Nat) : Option Nat × IterRange :=
  if r.start + n < r.stop then (some (r.start + n), IterRange.mk (r.start + n + 1) r.stop)
  else (none, IterRange.mk r.stop r.stop)

/-- DoubleEndedIterator::nth_back on a u32 Range: yield stop - n - 1 and
shrink the range to end there when inside the range, otherwise exhaust the
range (stop becomes start). -/
def rangeNthBack (r : IterRange) (n : Nat) : Option Nat × IterRange :=
  if r.start + n < r.stop then (some (r.stop - n - 1), IterRange.mk r.start (r.stop - n - 1))
  else (none, IterRange.mk r.start r.start)

/-- The shared-reference iterator from src/src/vec/iter.rs: the vector and
the remaining index range. -/
structure Iter (T : Type) (N : ℕ+) : Type where
  vec : ChunkedVector T N
  range : IterRange

/-- Iter::new starts with the full range 0..len. -/
def Iter.new (v : ChunkedVector T N) : Iter T N :=
  Iter.mk v (IterRange.mk 0 v.len)

/-- Iter remaining, used by size_hint and count. -/
def Iter.remaining (it : Iter T N) : Nat := it.range.remaining

/-- Iter::nth: take an index from the front of the range; when the range is
exhausted the yield is none (outer some: no abort); when the vector reports
the index absent the iterator aborts (outer none), the unwrap_or_else panic
in the source. -/
def Iter.nth (it : Iter T N) (n : Nat) : Option (Option T) × Iter T N :=
  match rangeNth it.range n with
  | (none, r) => (some none, Iter.mk it.vec r)
  | (some idx, r) =>
    match it.vec.get idx with
    | none => (none, Iter.mk it.vec r)
    | some x => (some (some x), Iter.mk it.vec r)

/-- Iter::nth_back, symmetric to nth at the back of the range. -/
def Iter.nthBack (it : Iter T N) (n : Nat) : Option (Option T) × Iter T N :=
  match rangeNthBack it.range n with
  | (none, r) => (some none, Iter.mk it.vec r)
  | (some idx, r) =>
    match it.vec.get idx with
    | none => (none, Iter.mk it.vec r)
    | some x => (some (some x), Iter.mk it.vec r)

/-- Iter::next is nth 0 in the source. -/
def Iter.next (it : Iter T N) : Option (Option T) × Iter T N := it.nth 0

/-- Iter::next_back is nth_back 0 in the source. -/
def Iter.nextBack (it : Iter T N) : Option (Option T) × Iter T N := it.nthBack 0

/-- The exclusive-reference iterator from src/src/vec/iter.rs; its range
logic is identical to Iter and element access goes through get_mut. -/
structure IterMut (T : Type) (N : ℕ+) : Type where
  vec : ChunkedVector T N
  range : IterRange

/-- IterMut::new starts with the full range 0..len. -/
def IterMut.new (v : ChunkedVector T N) : IterMut T N :=
  IterMut.mk v (IterRange.mk 0 v.len)

/-- IterMut remaining, used by size_hint and count. -/
def IterMut.remaining (it : IterMut T N) : Nat := it.range.remaining

/-- IterMut::nth, reading through get_mut. -/
def IterMut.nth (it : IterMut T N) (n : Nat) : Option (Option T) × IterMut T N :=
  match rangeNth it.range n with
  | (none, r) => (some none, IterMut.mk it.vec r)
  | (some idx, r) =>
    match it.vec.get_mut idx with
    | none => (none, IterMut.mk it.vec r)
    | some x => (some (some x), IterMut.mk it.vec r)

/-- IterMut::nth_back, reading through get_mut. -/
def IterMut.nthBack (it : IterMut T N) (n : Nat) : Option (Option T) × IterMut T N :=
  match rangeNthBack it.range n with
  | (none, r) => (some none, IterMut.mk it.vec r)
  | (some idx, r) =>
    match it.vec.get_mut idx with
    | none => (none, IterMut.mk it.vec r)
    | some x => (some (some x), IterMut.mk it.vec r)

/-- IterMut::next is nth 0 in the source. -/
def IterMut.next (it : IterMut T N) : Option (Option T) × IterMut T N := it.nth 0

/-- IterMut::next_back is nth_back 0 in the source. -/
def IterMut.nextBack (it : IterMut T N) : Option (Option T) × IterMut T N := it.nthBack 0

/-- One double-ended iterator operation: next, next_back, nth n, nth_back n. -/
inductive IterOp : Type
  | next : IterOp
  | nextBack : IterOp
  | nth : Nat → IterOp
  | nthBack : Nat → IterOp

/-- Run a sequence of operations on the vector iterator, collecting the
yields and the final remaining count; none when any step aborts. -/
def runIter (it : Iter T N) : List IterOp → Option (List (Option T) × Nat)
  | [] => some ([], it.remaining)
  | op :: ops =>
    match (match op with
           | IterOp.next => it.next
           | IterOp.nextBack => it.nextBack
           | IterOp.nth n => it.nth n
           | IterOp.nthBack n => it.nthBack n) with
    | (none, _) => none
    | (some o, it2) =>
      match runIter it2 ops with
      | none => none
      | some (outs, rem) => some (o :: outs, rem)

/-- Run a sequence of operations on the exclusive iterator. -/
def runIterMut (it : IterMut T N) : List IterOp → Option (List (Option T) × Nat)
  | [] => some ([], it.remaining)
  | op :: ops =>
    match (match op with
           | IterOp.next => it.next
           | IterOp.nextBack => it.nextBack
           | IterOp.nth n => it.nth n
           | IterOp.nthBack n => it.nthBack n) with
    | (none, _) => none
    | (some o, it2) =>
      match runIterMut it2 ops with
      | none => none
      | some (outs, rem) => some (o :: outs, rem)

/-- Reference array iterator, nth: the remaining elements are a plain list;
yield element n and drop everything up to it, or exhaust to the empty list.
This is the behaviour of the standard slice iterator the spec compares
against, fused by construction. -/
def listNth (l : List T) (n : Nat) : Option T × List T :=
  match l[n]? with
  | some x => (some x, l.drop (n + 1))
  | none => (none, [])

/-- Reference array iterator, nth_back: yield the element n places before the
end and keep everything before it, or exhaust to the empty list. -/
def listNthBack (l : List T) (n : Nat) : Option T × List T :=
  if n < l.length then (l[l.length - 1 - n]?, l.take (l.length - 1 - n))
  else (none, [])

/-- Run a sequence of operations on the reference array iterator, collecting
the yields and the final remaining count. -/
def runListIter (l : List T) : List IterOp → List (Option T) × Nat
  | [] => ([], l.length)
  | op :: ops =>
    match (match op with
           | IterOp.next => listNth l 0
           | IterOp.nextBack => listNthBack l 0
           | IterOp.nth n => listNth l n
           | IterOp.nthBack n => listNthBack l n) with
    | (o, l2) =>
      match runListIter l2 ops with
      | (outs, rem) => (o :: outs, rem)

theorem slice_getElem (l : List T) (s e n : Nat) (h : s + n < e) :
    ((l.drop s).take (e - s))[n]? = l[s + n]? := by
  rw [List.getElem?_take, if_pos (by omega : n < e - s), List.getElem?_drop]

theorem slice_getElem_none (l : List T) (s e n : Nat) (h : e ≤ s + n) :
    ((l.drop s).take (e - s))[n]? = none := by
  rw [List.getElem?_take, if_neg (by omega : ¬ n < e - s)]

theorem slice_length (l : List T) (s e : Nat) (hse : s ≤ e) (hel : e ≤ l.length) :
    ((l.drop s).take (e - s)).length = e - s := by
  rw [List.length_take, List.length_drop]
  omega

theorem slice_drop (l : List T) (s e n : Nat) :
    ((l.drop s).take (e - s)).drop (n + 1) = (l.drop (s + n + 1)).take (e - (s + n + 1)) := by
  rw [List.drop_take, List.drop_drop]
  have h1 : e - s - (n + 1) = e - (s + n + 1) := by omega
  have h2 : s + (n + 1) = s + n + 1 := by omega
  rw [h1, h2]

theorem slice_take (l : List T) (s e t : Nat) (h : t ≤ e - s) :
    ((l.drop s).take (e - s)).take t = (l.drop s).take t := by
  rw [List.take_take, Nat.min_eq_left h]

theorem iter_nth_sim {v : ChunkedVector T N} {l : List T} (hm : Models v l)
    {s e : Nat} (_hse : s ≤ e) (hel : e ≤ v.len) (n : Nat) :
    ∃ s2 e2 o,
      (Iter.mk v (IterRange.mk s e)).nth n = (some o, Iter.mk v (IterRange.mk s2 e2)) ∧
      listNth ((l.drop s).take (e - s)) n = (o, (l.drop s2).take (e2 - s2)) ∧
      s2 ≤ e2 ∧ e2 ≤ v.len := by
  have hlenl : v.len = l.length := hm.2.1
  by_cases h : s + n < e
  · obtain ⟨y, hy⟩ : ∃ y, l[s + n]? = some y :=
      ⟨_, List.getElem?_eq_getElem (by omega)⟩
    refine ⟨s + n + 1, e, some y, ?_, ?_, by omega, hel⟩
    · simp only [Iter.nth, rangeNth]
      rw [if_pos h]
      dsimp only
      rw [show v.get (s + n) = some y from (hm.2.2 _).trans hy]
    · rw [listNth, slice_getElem l s e n h, hy]
      dsimp only
      rw [slice_drop]
  · refine ⟨e, e, none, ?_, ?_, le_refl e, hel⟩
    · simp only [Iter.nth, rangeNth]
      rw [if_neg h]
    · rw [listNth, slice_getElem_none l s e n (by omega)]
      dsimp only
      rw [Nat.sub_self, List.take_zero]

theorem iter_nthBack_sim {v : ChunkedVector T N} {l : List T} (hm : Models v l)
    {s e : Nat} (hse : s ≤ e) (hel : e ≤ v.len) (n : Nat) :
    ∃ s2 e2 o,
      (Iter.mk v (IterRange.mk s e)).nthBack n = (some o, Iter.mk v (IterRange.mk s2 e2)) ∧
      listNthBack ((l.drop s).take (e - s)) n = (o, (l.drop s2).take (e2 - s2)) ∧
      s2 ≤ e2 ∧ e2 ≤ v.len := by
  have hlenl : v.len = l.length := hm.2.1
  have hsl : ((l.drop s).take (e - s)).length = e - s := slice_length l s e hse (by omega)
  by_cases h : s + n < e
  · obtain ⟨y, hy⟩ : ∃ y, l[e - n - 1]? = some y :=
      ⟨_, List.getElem?_eq_getElem (by omega)⟩
    refine ⟨s, e - n - 1, some y, ?_, ?_, by omega, by omega⟩
    · simp only [Iter.nthBack, rangeNthBack]
      rw [if_pos h]
      dsimp only
      rw [show v.get (e - n - 1) = some y from (hm.2.2 _).trans hy]
    · rw [listNthBack, if_pos (by rw [hsl]; omega), hsl]
      have hidx : ((l.drop s).take (e - s))[e - s - 1 - n]? = l[e - n - 1]? := by
        rw [slice_getElem l s e _ (by omega)]
        congr 1
        omega
      rw [hidx, hy, slice_take l s e _ (by omega)]
      have ht : e - s - 1 - n = e - n - 1 - s := by omega
      rw [ht]
  · refine ⟨s, s, none, ?_, ?_, le_refl s, by omega⟩
    · simp only [Iter.nthBack, rangeNthBack]
      rw [if_neg h]
    · rw [listNthBack, if_neg (by rw [hsl]; omega)]
      rw [Nat.sub_self, List.take_zero]

theorem runIter_sim {v : ChunkedVector T N} {l : List T} (hm : Models v l) :
    ∀ (ops : List IterOp) (s e : Nat), s ≤ e → e ≤ v.len →
      runIter (Iter.mk v (IterRange.mk s e)) ops =
        some (runListIter ((l.drop s).take (e - s)) ops) := by
  intro ops
  induction ops with
  | nil =>
    intro s e hse hel
    rw [runIter, runListIter, slice_length l s e hse (by rw [← hm.2.1]; exact hel)]
    rfl
  | cons op ops ih =>
    intro s e hse hel
    cases op with
    | next =>
      obtain ⟨s2, e2, o, hstep, hlist, hse2, hel2⟩ := iter_nth_sim hm hse hel 0
      rcases hres : runListIter ((l.drop s2).take (e2 - s2)) ops with ⟨outs, rem⟩
      rw [runIter, runListIter]
      dsimp only
      rw [Iter.next, hstep, hlist]
      dsimp only
      rw [ih s2 e2 hse2 hel2, hres]
    | nextBack =>
      obtain ⟨s2, e2, o, hstep, hlist, hse2, hel2⟩ := iter_nthBack_sim hm hse hel 0
      rcases hres : runListIter ((l.drop s2).take (e2 - s2)) ops with ⟨outs, rem⟩
      rw [runIter, runListIter]
      dsimp only
      rw [Iter.nextBack, hstep, hlist]
      dsimp only
      rw [ih s2 e2 hse2 hel2, hres]
    | nth n =>
      obtain ⟨s2, e2, o, hstep, hlist, hse2, hel2⟩ := iter_nth_sim hm hse hel n
      rcases hres : runListIter ((l.drop s2).take (e2 - s2)) ops with ⟨outs, rem⟩
      rw [runIter, runListIter]
      dsimp only
      rw [hstep, hlist]
      dsimp only
      rw [ih s2 e2 hse2 hel2, hres]
    | nthBack n =>
      obtain ⟨s2, e2, o, hstep, hlist, hse2, hel2⟩ := iter_nthBack_sim hm hse hel n
      rcases hres : runListIter ((l.drop s2).take (e2 - s2)) ops with ⟨outs, rem⟩
      rw [runIter, runListIter]
      dsimp only
      rw [hstep, hlist]
      dsimp only
      rw [ih s2 e2 hse2 hel2, hres]

theorem runIterMut_eq_runIter (v : ChunkedVector T N) :
    ∀ (ops : List IterOp) (r : IterRange),
      runIterMut (IterMut.mk v r) ops = runIter (Iter.mk v r) ops := by
  intro ops
  induction ops with
  | nil => intro r; rfl
  | cons op ops ih =>
    intro r
    cases op with
    | next =>
      rw [runIter, runIterMut]
      dsimp only [Iter.next, IterMut.next, Iter.nth, IterMut.nth]
      rcases hr : rangeNth r 0 with ⟨oi, r2⟩
      cases oi with
      | none =>
        dsimp only
        rw [ih r2]
      | some idx =>
        dsimp only
        rw [get_mut_eq_get]
        cases v.get idx with
        | none => rfl
        | some x =>
          dsimp only
          rw [ih r2]
    | nextBack =>
      rw [runIter, runIterMut]
      dsimp only [Iter.nextBack, IterMut.nextBack, Iter.nthBack, IterMut.nthBack]
      rcases hr : rangeNthBack r 0 with ⟨oi, r2⟩
      cases oi with
      | none =>
        dsimp only
        rw [ih r2]
      | some idx =>
        dsimp only
        rw [get_mut_eq_get]
        cases v.get idx with
        | none => rfl
        | some x =>
          dsimp only
          rw [ih r2]
    | nth n =>
      rw [runIter, runIterMut]
      dsimp only [Iter.nth, IterMut.nth]
      rcases hr : rangeNth r n with ⟨oi, r2⟩
      cases oi with
      | none =>
        dsimp only
        rw [ih r2]
      | some idx =>
        dsimp only
        rw [get_mut_eq_get]
        cases v.get idx with
        | none => rfl
        | some x =>
          dsimp only
          rw [ih r2]
    | nthBack n =>
      rw [runIter, runIterMut]
      dsimp only [Iter.nthBack, IterMut.nthBack]
      rcases hr : rangeNthBack r n with ⟨oi, r2⟩
      cases oi with
      | none =>
        dsimp only
        rw [ih r2]
      | some idx =>
        dsimp only
        rw [get_mut_eq_get]
        cases v.get idx with
        | none => rfl
        | some x =>
          dsimp only
          rw [ih r2]

/-- Borsh little-endian 4-byte encoding of a u32 value. -/
def borshU32 (n : Nat) : List Nat :=
  [n % 256, n / 256 % 256, n / 65536 % 256, n / 16777216 % 256]

/-- Borsh encoding of a byte vector: u32 length prefix then the bytes. -/
def borshByteVec (b : List Nat) : List Nat := borshU32 b.length ++ b

/-- Modelled from the spec: the external IndexMap store serializes only its
namespace bytes (its addressing state), never any cached chunk contents; the
repository test serialized_bytes in src/src/vec/mod.rs pins this layout. -/
def serializeStore {α : Type} (m : IndexMap α) : List Nat := borshByteVec m.pfx

/-- BorshSerialize for ChunkedVector from src/src/vec/mod.rs: serialize len,
then serialize the store. -/
def serializeVector (v : ChunkedVector T N) : List Nat :=
  borshU32 v.len ++ serializeStore v.values

/-- Parse a u32 from four little-endian bytes. -/
def parseU32 : List Nat → Option (Nat × List Nat)
  | b0 :: b1 :: b2 :: b3 :: rest =>
      some (b0 + 256 * b1 + 65536 * b2 + 16777216 * b3, rest)
  | _ => none

/-- Parse a length-prefixed byte vector. -/
def parseBytes (bytes : List Nat) : Option (List Nat × List Nat) :=
  match parseU32 bytes with
  | some (n, rest) => if n ≤ rest.length then some (rest.take n, rest.drop n) else none
  | none => none

/-- BorshDeserialize for ChunkedVector from src/src/vec/mod.rs: read the
length, then the store state (its namespace); the reconstructed store
resolves chunks lazily against the storage medium under that namespace. -/
def deserializeVector (T : Type) (N : ℕ+) (medium : List Nat → Nat → Option (Fin N → T))
    (bytes : List Nat) : Option (ChunkedVector T N) :=
  match parseU32 bytes with
  | none => none
  | some (len, rest) =>
    match parseBytes rest with
    | none => none
    | some (pfx, _) => some (ChunkedVector.mk len (IndexMap.mk pfx (medium pfx)))

theorem parse_borshU32 (n : Nat) (rest : List Nat) (h : n ≤ u32Max) :
    parseU32 (borshU32 n ++ rest) = some (n, rest) := by
  have h4 : n ≤ 4294967295 := h
  rw [borshU32]
  simp only [List.cons_append, List.nil_append, parseU32, Option.some.injEq, Prod.mk.injEq]
  exact ⟨by omega, trivial⟩

theorem parse_borshByteVec (b : List Nat) (rest : List Nat) (h : b.length ≤ u32Max) :
    parseBytes (borshByteVec b ++ rest) = some (b, rest) := by
  rw [borshByteVec, List.append_assoc, parseBytes, parse_borshU32 _ _ h]
  dsimp only
  rw [if_pos (by simp), List.take_left, List.drop_left]

theorem serialize_ignores_chunks (v w : ChunkedVector T N)
    (hlen : v.len = w.len) (hpfx : v.values.pfx = w.values.pfx) :
    serializeVector v = serializeVector w := by
  rw [serializeVector, serializeVector, serializeStore, serializeStore, hlen, hpfx]

theorem serialize_roundtrip (v : ChunkedVector T N)
    (medium : List Nat → Nat → Option (Fin N → T))
    (hlen : v.len ≤ u32Max) (hpfx : v.values.pfx.length ≤ u32Max)
    (hflush : medium v.values.pfx = v.values.view) :
    ∃ v', deserializeVector T N medium (serializeVector v) = some v' ∧
      v'.len = v.len ∧ v'.values.pfx = v.values.pfx ∧ ∀ i, v'.get i = v.get i := by
  have hser : deserializeVector T N medium (serializeVector v) =
      some (ChunkedVector.mk v.len (IndexMap.mk v.values.pfx (medium v.values.pfx))) := by
    rw [serializeVector, serializeStore, deserializeVector, parse_borshU32 _ _ hlen]
    dsimp only
    have hb := parse_borshByteVec v.values.pfx [] hpfx
    rw [List.append_nil] at hb
    rw [hb]
  refine ⟨_, hser, rfl, rfl, ?_⟩
  intro i
  rw [ChunkedVector.get, ChunkedVector.get]
  simp only [IndexMap.get, hflush]

theorem push_len [Inhabited T] {v v' : ChunkedVector T N} {x : T}
    (hp : v.push x = some v') : v'.len = v.len + 1 := by
  have hful : v.len ≠ u32Max := by
    intro h
    rw [push_eq_none_of_full v x h] at hp
    exact Option.noConfusion hp
  by_cases hp0 : chunk_pos N v.len = 0
  · rw [push_eq_new_chunk v x hful hp0, Option.some.injEq] at hp
    subst hp
    rfl
  · cases hc : v.values.view (chunk_index N v.len) with
    | none =>
      rw [push_eq_none_of_missing v x hful hp0 hc] at hp
      exact Option.noConfusion hp
    | some c =>
      rw [push_eq_old_chunk v x c hful hp0 hc, Option.some.injEq] at hp
      subst hp
      rfl

theorem push_creates [Inhabited T] {v v' : ChunkedVector T N} {x : T}
    (hp : v.push x = some v') :
    ∀ k, (v'.values.view k).isSome = true → (v.values.view k).isSome = false →
      k = chunk_index N v.len ∧ chunk_pos N v.len = 0 := by
  have hful : v.len ≠ u32Max := by
    intro h
    rw [push_eq_none_of_full v x h] at hp
    exact Option.noConfusion hp
  intro k hk1 hk2
  by_cases hp0 : chunk_pos N v.len = 0
  · rw [push_eq_new_chunk v x hful hp0, Option.some.injEq] at hp
    subst hp
    dsimp only at hk1
    rw [view_set] at hk1
    by_cases hke : k = chunk_index N v.len
    · exact ⟨hke, hp0⟩
    · rw [if_neg hke] at hk1
      rw [hk1] at hk2
      exact Bool.noConfusion hk2
  · cases hc : v.values.view (chunk_index N v.len) with
    | none =>
      rw [push_eq_none_of_missing v x hful hp0 hc] at hp
      exact Option.noConfusion hp
    | some c =>
      rw [push_eq_old_chunk v x c hful hp0 hc, Option.some.injEq] at hp
      subst hp
      dsimp only at hk1
      rw [view_set] at hk1
      by_cases hke : k = chunk_index N v.len
      · subst hke
        rw [hc] at hk2
        exact Bool.noConfusion hk2
      · rw [if_neg hke] at hk1
        rw [hk1] at hk2
        exact Bool.noConfusion hk2

theorem pop_destroys [Inhabited T] {v v' : ChunkedVector T N} {r : Option T}
    (hp : v.pop = some (r, v')) :
    ∀ k, (v.values.view k).isSome = true → (v'.values.view k).isSome = false →
      k = chunk_index N (v.len - 1) ∧ chunk_pos N (v.len - 1) = 0 := by
  intro k hk1 hk2
  cases hvl : v.len with
  | zero =>
    rw [pop_eq_empty v hvl, Option.some.injEq, Prod.mk.injEq] at hp
    obtain ⟨-, hv'⟩ := hp
    subst hv'
    rw [hk1] at hk2
    exact Bool.noConfusion hk2
  | succ n =>
    simp only [Nat.add_sub_cancel]
    by_cases hp0 : chunk_pos N n = 0
    · cases hc : v.values.view (chunk_index N n) with
      | none =>
        rw [pop_eq_none_of_missing_zero v n hvl hp0 hc] at hp
        exact Option.noConfusion hp
      | some c =>
        rw [pop_eq_remove_chunk v n c hvl hp0 hc, Option.some.injEq, Prod.mk.injEq] at hp
        obtain ⟨-, hv'⟩ := hp
        subst hv'
        dsimp only at hk2
        rw [view_set] at hk2
        by_cases hke : k = chunk_index N n
        · exact ⟨hke, hp0⟩
        · rw [if_neg hke] at hk2
          rw [hk1] at hk2
          exact Bool.noConfusion hk2
    · cases hc : v.values.view (chunk_index N n) with
      | none =>
        rw [pop_eq_mid_chunk_missing v n hvl hp0 hc, Option.some.injEq, Prod.mk.injEq] at hp
        obtain ⟨-, hv'⟩ := hp
        subst hv'
        rw [hk1] at hk2
        exact Bool.noConfusion hk2
      | some c =>
        rw [pop_eq_mid_chunk v n c hvl hp0 hc, Option.some.injEq, Prod.mk.injEq] at hp
        obtain ⟨-, hv'⟩ := hp
        subst hv'
        dsimp only at hk2
        rw [view_set] at hk2
        by_cases hke : k = chunk_index N n
        · rw [if_pos hke] at hk2
          exact Bool.noConfusion hk2
        · rw [if_neg hke] at hk2
          rw [hk1] at hk2
          exact Bool.noConfusion hk2

theorem highest_chunk_bound {v : ChunkedVector T N} (hv : ChunkInv v) :
    ∀ k, (v.values.view k).isSome = true → k ≤ chunk_index N (v.len - 1) := by
  intro k hk
  have hlt := (hv k).mp hk
  rw [chunk_index_def]
  rw [Nat.le_div_iff_mul_le N.pos]
  omega

/-- Chunk capacity five, the default chunk size of the repository. -/
def N5 : ℕ+ := ⟨5, Nat.succ_pos 4⟩

/-- A concrete chunk holding 10, 20, 30 in positions 0, 1, 2. -/
def exChunk : Fin N5 → Nat :=
  fun j => if j.val = 0 then 10 else if j.val = 1 then 20 else if j.val = 2 then 30 else 0

/-- A concrete three-element vector over a single chunk. -/
def exVec : ChunkedVector Nat N5 :=
  ChunkedVector.mk 3 (IndexMap.mk [] (fun k => if k = 0 then some exChunk else none))

theorem exVec_chunkInv : ChunkInv exVec := by
  intro k
  match k with
  | 0 => decide
  | k + 1 =>
    have hview : exVec.values.view (k + 1) = none := by
      simp [exVec]
    rw [hview]
    simp only [Option.isSome_none]
    constructor
    · intro h
      exact Bool.noConfusion h
    · intro h
      have h1 : (k + 1) * 5 < 3 := h
      omega

theorem exVec_get : ∀ i, exVec.get i = [10, 20, 30][i]? := by
  intro i
  match i with
  | 0 => decide
  | 1 => decide
  | 2 => decide
  | i + 3 =>
    rw [get_of_le (Nat.le_add_left 3 i)]
    exact (List.getElem?_eq_none (by simp)).symm

theorem exVec_models : Models exVec [10, 20, 30] :=
  ⟨exVec_chunkInv, rfl, exVec_get⟩

/-- A vector claiming one element over an empty store: the inconsistent
state discussed by the spec. -/
def badVec : ChunkedVector Nat N5 :=
  ChunkedVector.mk 1 (IndexMap.mk [] (fun _ => none))

/-- A vector at the u32 length limit (over an empty store; push rejects it
before touching the store). -/
def maxVec : ChunkedVector Nat N5 :=
  ChunkedVector.mk u32Max (IndexMap.mk [] (fun _ => none))

/-- Claim C1, counterexample: a vector with len 1 whose store lacks the
chunk owning index 0. The claim says get and get_mut must fail loudly
(abort) in this situation rather than return None; the code of get and
get_mut has no abort path at all and returns None here, as this concrete
evaluation shows. -/
theorem c1_counterexample :
    0 < badVec.len ∧ badVec.values.view (chunk_index N5 0) = none ∧
      badVec.get 0 = none ∧ badVec.get_mut 0 = none :=
  ⟨by decide, rfl, by decide, by decide⟩

/-- Claim C1, amended: get(i) and get_mut(i) return none when i is at least
len; when i is below len they return the element at chunk position
chunk_pos(i) of chunk chunk_index(i) when the store holds that chunk, and
silently return none, not aborting, when the store reports it missing. -/
theorem c1_get_amended (v : ChunkedVector T N) (i : Nat) :
    (v.len ≤ i → v.get i = none ∧ v.get_mut i = none) ∧
    (i < v.len →
      (∀ c, v.values.view (chunk_index N i) = some c →
        v.get i = some (c (posFin N i)) ∧ v.get_mut i = some (c (posFin N i))) ∧
      (v.values.view (chunk_index N i) = none →
        v.get i = none ∧ v.get_mut i = none)) := by
  refine ⟨fun h => ⟨get_of_le h, (get_mut_eq_get v i).trans (get_of_le h)⟩,
    fun h => ⟨?_, ?_⟩⟩
  · intro c hc
    have hg : v.get i = some (c (posFin N i)) := by
      rw [get_of_lt h, hc, Option.map_some']
    exact ⟨hg, (get_mut_eq_get v i).trans hg⟩
  · intro hc
    have hg : v.get i = none := by
      rw [get_of_lt h, hc]
      rfl
    exact ⟨hg, (get_mut_eq_get v i).trans hg⟩

/-- Claim C1 witness: the amended statement applied to the concrete
inconsistent vector at index 0. -/
theorem c1_get_amended_witness : badVec.get 0 = none ∧ badVec.get_mut 0 = none :=
  ((c1_get_amended badVec 0).2 (by decide)).2 rfl

/-- Claim C2: swap_remove aborts on the empty vector and on an
out-of-bounds index; on a valid vector with i in range it returns the prior
value at i, the length drops by exactly one, the former last element is
found at i afterwards (when i was not the last index), and every other
surviving index reads unchanged. -/
theorem c2_swap_remove_spec [Inhabited T] (v : ChunkedVector T N) (i : Nat) :
    (v.len = 0 → v.swap_remove i = none) ∧
    (v.len ≤ i → v.swap_remove i = none) ∧
    (ChunkInv v → i < v.len →
      ∃ x v', v.swap_remove i = some (x, v') ∧ v.get i = some x ∧
        v'.len = v.len - 1 ∧
        (i < v.len - 1 → v'.get i = v.get (v.len - 1)) ∧
        ∀ j, j < v.len - 1 → j ≠ i → v'.get j = v.get j) := by
  refine ⟨?_, ?_, ?_⟩
  · intro h
    rw [ChunkedVector.swap_remove, if_pos h]
  · intro h
    by_cases h0 : v.len = 0
    · rw [ChunkedVector.swap_remove, if_pos h0]
    · rw [ChunkedVector.swap_remove, if_neg h0, swap_eq_oob v i (v.len - 1) (Or.inl h)]
  · intro hv hi
    obtain ⟨x, v', h1, h2, h3, _h4, h5, h6⟩ := swap_remove_spec_aux hv hi
    exact ⟨x, v', h1, h2, h3, h5, h6⟩

/-- Claim C2 witness: swap_remove 0 on the concrete three-element vector. -/
theorem c2_swap_remove_witness :
    ∃ x v', exVec.swap_remove 0 = some (x, v') ∧ exVec.get 0 = some x ∧
      v'.len = exVec.len - 1 ∧
      (0 < exVec.len - 1 → v'.get 0 = exVec.get (exVec.len - 1)) ∧
      ∀ j, j < exVec.len - 1 → j ≠ 0 → v'.get j = exVec.get j :=
  (c2_swap_remove_spec exVec 0).2.2 exVec_chunkInv (by decide)

/-- Claim C3: pop returns none on the empty vector without change; on a
nonempty valid vector with last index n it returns the element at index n:
when chunk_pos n = 0 the whole chunk chunk_index n is removed from the
store and its position-0 element returned, otherwise the element is
extracted and its slot overwritten with the zeroed placeholder; the final
length is n in both cases. The decrement-last ordering of the source is
reflected here as the returned value being read from the pre-decrement
state. -/
theorem c3_pop_spec [Inhabited T] (v : ChunkedVector T N) :
    (v.len = 0 → v.pop = some (none, v)) ∧
    (∀ n, v.len = n + 1 → ChunkInv v →
      ∃ c, v.values.view (chunk_index N n) = some c ∧
        v.get n = some (c (posFin N n)) ∧
        (chunk_pos N n = 0 →
          v.pop = some (some (c (posFin N n)),
            ChunkedVector.mk n (v.values.set (chunk_index N n) none))) ∧
        (chunk_pos N n ≠ 0 →
          v.pop = some (some (c (posFin N n)),
            ChunkedVector.mk n
              (v.values.set (chunk_index N n) (some (setPos c (posFin N n) default)))))) := by
  refine ⟨pop_eq_empty v, ?_⟩
  intro n hlen hv
  obtain ⟨c, hc⟩ : ∃ c, v.values.view (chunk_index N n) = some c :=
    viewSome_of_inv hv (by have := div_mul_le (N := N) n; omega)
  refine ⟨c, hc, ?_, ?_, ?_⟩
  · rw [get_of_lt (by omega), hc, Option.map_some']
  · intro hp0
    have hpe := pop_eq_remove_chunk v n c hlen hp0 hc
    have hfin : (⟨0, N.pos⟩ : Fin N) = posFin N n :=
      Fin.ext (by simpa [posFin_val] using hp0.symm)
    rw [hfin] at hpe
    exact hpe
  · intro hp0
    exact pop_eq_mid_chunk v n c hlen hp0 hc

/-- Claim C3 witness: pop on the concrete three-element vector, whose last
index 2 sits mid-chunk. -/
theorem c3_pop_witness :
    ∃ c, exVec.values.view (chunk_index N5 2) = some c ∧
      exVec.get 2 = some (c (posFin N5 2)) ∧
      (chunk_pos N5 2 = 0 →
        exVec.pop = some (some (c (posFin N5 2)),
          ChunkedVector.mk 2 (exVec.values.set (chunk_index N5 2) none))) ∧
      (chunk_pos N5 2 ≠ 0 →
        exVec.pop = some (some (c (posFin N5 2)),
          ChunkedVector.mk 2
            (exVec.values.set (chunk_index N5 2) (some (setPos c (posFin N5 2) default))))) :=
  (c3_pop_spec exVec).2 2 rfl exVec_chunkInv

/-- Claim C4: pushing any list of values onto a fresh empty vector and then
popping the same number of times yields exactly those values in reverse
order, after which the vector is empty. -/
theorem c4_push_pop_duality [Inhabited T] (pfx : List Nat) (xs : List T)
    (v : ChunkedVector T N) (hp : pushList (ChunkedVector.new pfx) xs = some v) :
    ∃ vf, popN v xs.length = some (xs.reverse, vf) ∧ vf.is_empty = true := by
  have hm : Models v xs := by
    have h := pushList_models xs (ChunkedVector.new pfx) [] v (models_new pfx) hp
    simpa using h
  obtain ⟨vf, hpop, hmf⟩ := popN_models xs v hm
  refine ⟨vf, hpop, ?_⟩
  have h0 : vf.len = 0 := by simpa using hmf.2.1
  simp [ChunkedVector.is_empty, h0]

/-- Claim C4 witness: push 1, 2, 3 onto a fresh vector with chunk capacity
five, then pop three times. -/
theorem c4_push_pop_witness :
    ∃ v, pushList (ChunkedVector.new (T := Nat) (N := N5) []) [1, 2, 3] = some v ∧
      ∃ vf, popN v 3 = some ([3, 2, 1], vf) ∧ vf.is_empty = true := by
  refine ⟨_, rfl, ?_⟩
  exact c4_push_pop_duality [] [1, 2, 3] _ rfl

/-- Claim C5: the chunk-existence invariant (a chunk is in the store exactly
when it owns at least one live index, so chunk_index (len - 1) bounds the
chunk indices that may exist) is preserved by push, pop, swap, swap_remove
and clear; a chunk appears under push only when the push writes its
position-0 slot, and disappears under pop only when the pop removes its
live position-0 element. -/
theorem c5_chunk_invariant [Inhabited T] :
    (∀ (v v' : ChunkedVector T N) (x : T),
      ChunkInv v → v.push x = some v' → ChunkInv v') ∧
    (∀ (v v' : ChunkedVector T N) (r : Option T),
      ChunkInv v → v.pop = some (r, v') → ChunkInv v') ∧
    (∀ (v v' : ChunkedVector T N) (a b : Nat),
      ChunkInv v → v.swap a b = some v' → ChunkInv v') ∧
    (∀ (v v' : ChunkedVector T N) (i : Nat) (x : T),
      ChunkInv v → v.swap_remove i = some (x, v') → ChunkInv v') ∧
    (∀ v : ChunkedVector T N, ChunkInv v → ChunkInv v.clear) ∧
    (∀ v : ChunkedVector T N, ChunkInv v →
      ∀ k, (v.values.view k).isSome = true → k ≤ chunk_index N (v.len - 1)) ∧
    (∀ (v v' : ChunkedVector T N) (x : T), v.push x = some v' →
      ∀ k, (v'.values.view k).isSome = true → (v.values.view k).isSome = false →
        k = chunk_index N v.len ∧ chunk_pos N v.len = 0) ∧
    (∀ (v v' : ChunkedVector T N) (r : Option T), v.pop = some (r, v') →
      ∀ k, (v.values.view k).isSome = true → (v'.values.view k).isSome = false →
        k = chunk_index N (v.len - 1) ∧ chunk_pos N (v.len - 1) = 0) :=
  ⟨fun _ _ _ hv hp => push_chunkInv hv hp,
   fun _ _ _ hv hp => pop_chunkInv hv hp,
   fun _ _ _ _ hv hp => swap_chunkInv hv hp,
   fun _ _ _ _ hv hp => swap_remove_chunkInv hv hp,
   fun v hv => clear_chunkInv v hv,
   fun _ hv => highest_chunk_bound hv,
   fun _ _ _ hp => push_creates hp,
   fun _ _ _ hp => pop_destroys hp⟩

/-- Claim C5 witness: the invariant survives a concrete push onto the
three-element vector and a concrete clear of it. -/
theorem c5_chunk_invariant_witness :
    ∃ v', exVec.push 7 = some v' ∧ ChunkInv v' ∧ ChunkInv exVec.clear :=
  ⟨_, rfl,
   (c5_chunk_invariant (T := Nat) (N := N5)).1 exVec _ 7 exVec_chunkInv rfl,
   (c5_chunk_invariant (T := Nat) (N := N5)).2.2.2.2.1 exVec exVec_chunkInv⟩

/-- Claim C6: starting from the full range over a vector that models a
list, any interleaving of next, next_back, nth and nth_back on the shared
and exclusive vector iterators agrees with the reference array iterator:
identical yield sequences and identical remaining counts. The reference
iterator is fused by construction (exhaustion empties its state for good),
so the agreement carries fused behaviour over to the vector iterators. -/
theorem c6_iter_equiv {v : ChunkedVector T N} {l : List T} (hm : Models v l)
    (ops : List IterOp) :
    runIter (Iter.new v) ops = some (runListIter l ops) ∧
    runIterMut (IterMut.new v) ops = some (runListIter l ops) := by
  have h1 : runIter (Iter.new v) ops = some (runListIter l ops) := by
    have h := runIter_sim hm ops 0 v.len (Nat.zero_le _) (le_refl _)
    have hs : (l.drop 0).take (v.len - 0) = l := by
      rw [List.drop_zero, Nat.sub_zero, hm.2.1, List.take_length]
    rw [hs] at h
    exact h
  refine ⟨h1, ?_⟩
  rw [IterMut.new, runIterMut_eq_runIter]
  exact h1

/-- Claim C6 witness: a concrete interleaving of all four operations on the
three-element vector, including steps past exhaustion. -/
theorem c6_iter_equiv_witness :
    runIter (Iter.new exVec)
        [IterOp.next, IterOp.nthBack 1, IterOp.next, IterOp.next, IterOp.nextBack] =
      some (runListIter [10, 20, 30]
        [IterOp.next, IterOp.nthBack 1, IterOp.next, IterOp.next, IterOp.nextBack]) ∧
    runIterMut (IterMut.new exVec)
        [IterOp.next, IterOp.nthBack 1, IterOp.next, IterOp.next, IterOp.nextBack] =
      some (runListIter [10, 20, 30]
        [IterOp.next, IterOp.nthBack 1, IterOp.next, IterOp.next, IterOp.nextBack]) :=
  c6_iter_equiv exVec_models
    [IterOp.next, IterOp.nthBack 1, IterOp.next, IterOp.next, IterOp.nextBack]

/-- Claim C7: serialization writes the length followed by exactly the
serialized store state, which is the namespace bytes and never any chunk
contents (any two vectors agreeing on length and namespace serialize
identically); deserializing those bytes against a medium holding the
flushed view yields a vector whose len equals the original and whose get
agrees with the original at every index. -/
theorem c7_serialization (v : ChunkedVector T N)
    (medium : List Nat → Nat → Option (Fin N → T))
    (hlen : v.len ≤ u32Max) (hpfx : v.values.pfx.length ≤ u32Max)
    (hflush : medium v.values.pfx = v.values.view) :
    serializeVector v = borshU32 v.len ++ borshByteVec v.values.pfx ∧
    (∀ w : ChunkedVector T N, w.len = v.len → w.values.pfx = v.values.pfx →
      serializeVector w = serializeVector v) ∧
    ∃ v', deserializeVector T N medium (serializeVector v) = some v' ∧
      v'.len = v.len ∧ ∀ i, v'.get i = v.get i := by
  refine ⟨rfl, fun w h1 h2 => serialize_ignores_chunks w v h1 h2, ?_⟩
  obtain ⟨v', h1, h2, _h3, h4⟩ := serialize_roundtrip v medium hlen hpfx hflush
  exact ⟨v', h1, h2, h4⟩

/-- Claim C7 witness: round trip of the concrete three-element vector over
a medium equal to its flushed view. -/
theorem c7_serialization_witness :
    serializeVector exVec = borshU32 exVec.len ++ borshByteVec exVec.values.pfx ∧
    (∀ w : ChunkedVector Nat N5, w.len = exVec.len → w.values.pfx = exVec.values.pfx →
      serializeVector w = serializeVector exVec) ∧
    ∃ v', deserializeVector Nat N5 (fun _ => exVec.values.view) (serializeVector exVec) =
        some v' ∧ v'.len = exVec.len ∧ ∀ i, v'.get i = exVec.get i :=
  c7_serialization exVec (fun _ => exVec.values.view) (by decide) (by decide) rfl

/-- Claim C8: push at len = u32::MAX aborts instead of wrapping; on any
valid vector below the limit push succeeds and the length grows by exactly
one. -/
theorem c8_push_capacity [Inhabited T] (v : ChunkedVector T N) (x : T) :
    (v.len = u32Max → v.push x = none) ∧
    (ChunkInv v → v.len < u32Max → ∃ v', v.push x = some v' ∧ v'.len = v.len + 1) := by
  refine ⟨fun h => push_eq_none_of_full v x h, fun hv hlt => ?_⟩
  obtain ⟨v', hp⟩ := push_succeeds hv hlt x
  exact ⟨v', hp, push_len hp⟩

/-- Claim C8 witness: push aborts on a concrete vector of length u32::MAX
and succeeds on a fresh empty vector, growing it to length one. -/
theorem c8_push_capacity_witness :
    maxVec.push 7 = none ∧
    ∃ v', (ChunkedVector.new (T := Nat) (N := N5) []).push 7 = some v' ∧
      v'.len = (ChunkedVector.new (T := Nat) (N := N5) []).len + 1 :=
  ⟨(c8_push_capacity maxVec 7).1 rfl,
   (c8_push_capacity (ChunkedVector.new []) 7).2 (chunkInv_new []) (by decide)⟩

/-- Claim C9: clear always results in length zero, is_empty, get 0 absent,
and the chunk owning every formerly live index removed from the store. -/
theorem c9_clear (v : ChunkedVector T N) :
    v.clear.len = 0 ∧ v.clear.is_empty = true ∧ v.clear.get 0 = none ∧
    ∀ i, i < v.len → v.clear.values.view (chunk_index N i) = none := by
  refine ⟨rfl, rfl, rfl, ?_⟩
  intro i hi
  rw [clear_view]
  have hle : chunk_index N i ≤ i := Nat.div_le_self i N
  rw [if_pos (by omega)]

/-- Claim C9 witness: clear of the concrete three-element vector. -/
theorem c9_clear_witness :
    exVec.clear.len = 0 ∧ exVec.clear.is_empty = true ∧ exVec.clear.get 0 = none ∧
      exVec.clear.values.view (chunk_index N5 0) = none :=
  ⟨(c9_clear exVec).1, (c9_clear exVec).2.1, (c9_clear exVec).2.2.1,
   (c9_clear exVec).2.2.2 0 (by decide)⟩

/-- Claim C10: pop is frame-preserving: when it completes on a vector of
length n + 1, every index below n reads exactly as before, and every store
slot other than the chunk of the removed index is untouched; only the
length and the last chunk change. -/
theorem c10_pop_frame [Inhabited T] (v v' : ChunkedVector T N) (r : Option T) (n : Nat)
    (hlen : v.len = n + 1) (hp : v.pop = some (r, v')) :
    v'.len = n ∧ (∀ j, j < n → v'.get j = v.get j) ∧
    ∀ k, k ≠ chunk_index N n → v'.values.view k = v.values.view k := by
  obtain ⟨h1, h2, h3⟩ := pop_frame_aux hlen hp
  exact ⟨h1, h3, h2⟩

/-- Claim C10 witness: pop on the concrete three-element vector leaves
indices 0 and 1 and every other chunk unchanged. -/
theorem c10_pop_frame_witness :
    ∃ r v', exVec.pop = some (r, v') ∧ v'.len = 2 ∧
      (∀ j, j < 2 → v'.get j = exVec.get j) ∧
      ∀ k, k ≠ chunk_index N5 2 → v'.values.view k = exVec.values.view k := by
  obtain ⟨r, v', hp⟩ : ∃ r v', exVec.pop = some (r, v') := ⟨_, _, rfl⟩
  obtain ⟨h1, h2, h3⟩ := c10_pop_frame exVec v' r 2 rfl hp
  exact ⟨r, v', hp, h1, h2, h3⟩

end ChunkedCollections
